import Mathlib

/-!
Verification of the QuBLAS fixed-point BLAS library (src/include/QuBLAS.h)
against its natural-language specification.

The development shallowly embeds the numeric kernel of the library:

* the quantization policy tags `RND`/`TRN` (rounding) and `SAT`/`WRP`
  (overflow) become the inductives `Rnd` and `Ofm`;
* a fixed-point format (`intBits`, `fracBits`, `isSigned`, rounding mode,
  overflow mode) becomes the record `Fmt`;
* the casting algebra `fracConvert` / `intConvert` is translated
  bit-identically from the template specializations (C++ arithmetic right
  shift on a two's-complement integer is floor division by a power of two,
  `val & ~((1<<d)-1)` clears the low `d` bits, i.e. subtracts `val mod 2^d`,
  and bitwise masking of a two's-complement value is `emod` by a power of
  two);
* the output-format mergers `MulMerger` / `AddMerger` and the scalar
  primitives `Qmul_s::mul`, `Qadd_s::add`, `Qsub_s::sub`, `Qdiv_s::div`
  become pure functions on raw data (`Int`), parameterized by the operand
  formats and the derived output format;
* the tree reducer, `Qgemul`, `Qpotrf` and `Qpotrs` are translated at the
  small concrete sizes the claims exercise, preserving the exact loop
  structure and update order of the index-sequence fold expressions.

`long long int` intermediates are modeled as unbounded `Int`: for the
formats admitted by the library (`intBits + fracBits ≤ 31`) every
intermediate of the translated expressions fits in 63 bits, so the model
and the 64-bit machine arithmetic coincide.
-/

namespace QuBLAS

/-- Rounding (quantization) modes: the five `RND` tie-break modes and the
two `TRN` truncation modes of the source, in the order of their `value`
constants 0..6. -/
inductive Rnd
  | posInf
  | negInf
  | zero
  | inf
  | conv
  | tcpl
  | smgn
deriving DecidableEq

/-- Overflow modes: the three `SAT` saturation modes and `WRP::TCPL`,
in the order of their `value` constants 0..3. -/
inductive Ofm
  | satTcpl
  | satZero
  | satSmgn
  | wrpTcpl
deriving DecidableEq

/-- A fixed-point format: integer width, fractional width, signedness,
rounding mode and overflow mode (the five template arguments of a static
`Qu_s`, or the five runtime fields of a dynamic one). -/
structure Fmt where
  i : Nat
  f : Nat
  s : Bool
  qm : Rnd
  om : Ofm
deriving DecidableEq

/-- The invariant `static_assert`-ed by every scalar `Qu_s`: the total
width is at most 31 bits (the lower bound `0 ≤ i + f` is automatic for
`Nat` widths). A format violating this cannot be instantiated: any code
path producing it is rejected at compile time. -/
def validFmt (F : Fmt) : Prop := F.i + F.f ≤ 31

instance : DecidablePred validFmt := fun F =>
  inferInstanceAs (Decidable (F.i + F.f ≤ 31))

/-- Arithmetic right shift by `d` of a two's-complement integer:
floor division by `2 ^ d`. -/
def asr (d : Nat) (v : Int) : Int := Int.fdiv v (2 ^ d)

/-- The C++ idiom `val & ~((1 << d) - 1)` (bitwise and with the mask
`0 - (1 << d)`): clearing the low `d` bits of a two's-complement integer
rounds it down to a multiple of `2 ^ d`, i.e. subtracts `val mod 2^d`
(`%` on `Int` is the nonnegative Euclidean remainder). -/
def floorMask (d : Nat) (v : Int) : Int := v - v % 2 ^ d

/-- Translation of the template `fracConvert<fromFrac, toFrac, QuMode<m>>
::convert` specializations (and of the identical `case` arms of the
runtime `fracConvertDynamic`): align a value from fractional width
`fromF` to `toF` under rounding mode `m`. -/
def fracConvert (fromF toF : Nat) (m : Rnd) (v : Int) : Int :=
  match m with
  | .posInf =>
    if fromF ≤ toF then v * 2 ^ (toF - fromF)
    else
      let fl := floorMask (fromF - toF) v
      let ce := fl + 2 ^ (fromF - toF)
      asr (fromF - toF) (if v - fl < ce - v then fl else ce)
  | .negInf =>
    if fromF ≤ toF then v * 2 ^ (toF - fromF)
    else
      let fl := floorMask (fromF - toF) v
      let ce := fl + 2 ^ (fromF - toF)
      asr (fromF - toF) (if v - fl ≤ ce - v then fl else ce)
  | .zero =>
    if fromF ≤ toF then v * 2 ^ (toF - fromF)
    else
      let fl := floorMask (fromF - toF) v
      let ce := fl + 2 ^ (fromF - toF)
      if 0 < fl + ce then asr (fromF - toF) fl else asr (fromF - toF) ce
  | .inf =>
    if fromF ≤ toF then v * 2 ^ (toF - fromF)
    else
      let fl := floorMask (fromF - toF) v
      let ce := fl + 2 ^ (fromF - toF)
      if fl + ce < 0 then asr (fromF - toF) fl else asr (fromF - toF) ce
  | .conv =>
    if fromF ≤ toF then v * 2 ^ (toF - fromF)
    else
      let fl := floorMask (fromF - toF) v
      let ce := fl + 2 ^ (fromF - toF)
      if fl + ce = 2 * v then
        if asr (fromF - toF) fl % 2 = 1 then asr (fromF - toF) ce
        else asr (fromF - toF) fl
      else asr (fromF - toF) (if v - fl < ce - v then fl else ce)
  | .tcpl =>
    if fromF ≤ toF then v * 2 ^ (toF - fromF)
    else asr (fromF - toF) v
  | .smgn =>
    if fromF < toF then v * 2 ^ (toF - fromF)
    else if 0 ≤ v then asr (fromF - toF) v
    else -(asr (fromF - toF) (-v))

/-- Translation of the template `intConvert<toInt, toFrac, toIsSigned,
OfMode<m>>::convert` specializations (and of the identical `case` arms of
`intConvertDynamic`): clamp or wrap a fractionally-aligned value into the
`(ti, tf, s)` range. The final `static_cast<int>` of the source is the
identity whenever `ti + tf ≤ 31`, which `validFmt` guarantees, so it is
not modeled. For `WRP::TCPL`, masking a two's-complement value to the low
`b` bits is `emod` by `2 ^ b`, testing bit `ti+tf` is comparison with
`2 ^ (ti+tf)`, and or-ing the complement mask back in subtracts
`2 ^ (ti+tf+1)`. -/
def intConvert (ti tf : Nat) (s : Bool) (om : Ofm) (v : Int) : Int :=
  let mx : Int := 2 ^ (ti + tf) - 1
  let mn : Int := if s then -mx - 1 else 0
  match om with
  | .satTcpl => min (max v mn) mx
  | .satZero => if mx < v ∨ v < mn then 0 else v
  | .satSmgn => min (max v (mn + 1)) mx
  | .wrpTcpl =>
    if s then
      let w := v % 2 ^ (ti + tf + 1)
      if 2 ^ (ti + tf) ≤ w then w - 2 ^ (ti + tf + 1) else w
    else v % 2 ^ (ti + tf)

/-- Merged rounding mode of two operands: the common mode if they agree,
otherwise the library default `TRN::TCPL`. -/
def mergeRnd (a b : Rnd) : Rnd := if a = b then a else .tcpl

/-- Merged overflow mode of two operands: the common mode if they agree,
otherwise the library default `SAT::TCPL`. -/
def mergeOfm (a b : Ofm) : Ofm := if a = b then a else .satTcpl

/-- The output format derived by `MulMerger` before the width cap
(`toInt`, `toFrac`, `toIsSigned`, `toQuMode`, `toOfMode`), for a policy
bundle that contains no explicit width/signedness/mode overrides;
`fullPrec` records whether the bundle contains the `FullPrec` tag. -/
def MulMerger (fullPrec : Bool) (F1 F2 : Fmt) : Fmt :=
  ⟨if fullPrec then F1.i + F2.i else max F1.i F2.i,
   if fullPrec then F1.f + F2.f else max F1.f F2.f,
   F1.s || F2.s, mergeRnd F1.qm F2.qm, mergeOfm F1.om F2.om⟩

/-- The output format derived by `AddMerger` before the width cap (used by
`Qadd_s`, `Qsub_s` and `Qdiv_s`), with no explicit overrides in the
bundle. -/
def AddMerger (fullPrec : Bool) (F1 F2 : Fmt) : Fmt :=
  ⟨max F1.i F2.i + if fullPrec then 1 else 0,
   max F1.f F2.f,
   F1.s || F2.s, mergeRnd F1.qm F2.qm, mergeOfm F1.om F2.om⟩

/-- The width cap `toIntFinal` of the mergers, over `int` (the template
parameters are C++ `int`, and the intermediate `toInt - (toInt + toFrac -
31 + 1) / 2` can go negative). The numerator is positive whenever the
guard holds, so C++ truncating division coincides with the floor division
of `Int./`. -/
def toIntFinal (i f : Int) : Int :=
  if 31 < i + f then i - (i + f - 30) / 2 else i

/-- The width cap `toFracFinal` of the mergers, companion of
`toIntFinal`. -/
def toFracFinal (i f : Int) : Int :=
  if 31 < i + f then f - (i + f - 30) / 2 else f

/-- The width cap applied to a whole format (the `resType` of the mergers,
and the in-line cap of the dynamic operations). Stated over `Nat` widths;
for the regimes exercised here the subtraction never underflows, so this
agrees with the `int` arithmetic of `toIntFinal`/`toFracFinal`. -/
def capFmt (F : Fmt) : Fmt :=
  if 31 < F.i + F.f then
    { F with i := F.i - (F.i + F.f - 30) / 2, f := F.f - (F.i + F.f - 30) / 2 }
  else F

/-- Raw-data semantics of the static `Qmul_s::mul`: full double-width
product, `fracConvert` from `f1 + f2` to the output fraction width under
the output rounding mode, then `intConvert` under the output overflow
mode. `Fo` is the output format the source instantiates — note the static
specialization uses the merger's *uncapped* `toInt`/`toFrac`. -/
def Qmul (F1 F2 Fo : Fmt) (d1 d2 : Int) : Int :=
  intConvert Fo.i Fo.f Fo.s Fo.om (fracConvert (F1.f + F2.f) Fo.f Fo.qm (d1 * d2))

/-- Raw-data semantics of the static `Qadd_s::add`: operands left-aligned
to the common fraction width `max f1 f2` (shifts `shiftA`/`shiftB`), then
summed, `fracConvert`-ed and `intConvert`-ed into the output format. -/
def Qadd (F1 F2 Fo : Fmt) (d1 d2 : Int) : Int :=
  intConvert Fo.i Fo.f Fo.s Fo.om
    (fracConvert (max F1.f F2.f) Fo.f Fo.qm
      (d1 * 2 ^ (max F1.f F2.f - F1.f) + d2 * 2 ^ (max F1.f F2.f - F2.f)))

/-- Raw-data semantics of the static `Qsub_s::sub`: like `Qadd` with the
aligned difference. -/
def Qsub (F1 F2 Fo : Fmt) (d1 d2 : Int) : Int :=
  intConvert Fo.i Fo.f Fo.s Fo.om
    (fracConvert (max F1.f F2.f) Fo.f Fo.qm
      (d1 * 2 ^ (max F1.f F2.f - F1.f) - d2 * 2 ^ (max F1.f F2.f - F2.f)))

/-- Raw-data semantics of the static `Qdiv_s::div`: a zero divisor
returns raw `0`; otherwise the numerator is left-shifted by `shiftA`
and then by the output fraction width, divided (C++ `/`, i.e. truncation
toward zero: `Int.tdiv`) by the `shiftB`-aligned denominator, and only
`intConvert` is applied — no `fracConvert` touches the quotient. -/
def Qdiv (F1 F2 Fo : Fmt) (d1 d2 : Int) : Int :=
  if d2 = 0 then 0
  else
    intConvert Fo.i Fo.f Fo.s Fo.om
      (Int.tdiv (d1 * 2 ^ ((max F1.f F2.f - F1.f) + Fo.f))
        (d2 * 2 ^ (max F1.f F2.f - F2.f)))

/-- Raw-data semantics of the `QuDynamic` specialization of
`Qdiv_s::div` with an empty policy bundle: the output format is the
capped default `AddMerger` result, the zero-divisor branch yields raw
`0`, and otherwise the same shifted truncating division feeds
`intConvert`. Returns the output format together with the data. -/
def QdivDynamic (F1 F2 : Fmt) (d1 d2 : Int) : Fmt × Int :=
  let Fo := capFmt (AddMerger false F1 F2)
  if d2 = 0 then (Fo, 0)
  else
    (Fo, intConvert Fo.i Fo.f Fo.s Fo.om
      (Int.tdiv (d1 * 2 ^ ((max F1.f F2.f - F1.f) + Fo.f))
        (d2 * 2 ^ (max F1.f F2.f - F2.f))))

/-- Conversion performed by the `Qu_s` converting constructor (and by
assignment between differently-formatted scalars): identical
`(intBits, fracBits, isSigned)` triples copy the raw data directly;
otherwise `fracConvert` under the *target's* rounding mode is followed by
`intConvert` under the target's overflow mode. -/
def convertData (src dst : Fmt) (d : Int) : Int :=
  if src.i = dst.i ∧ src.f = dst.f ∧ src.s = dst.s then d
  else intConvert dst.i dst.f dst.s dst.om (fracConvert src.f dst.f dst.qm d)

/-- Construction of a scalar from a real number, `Qu_s(T val)`: the source
computes `(long long)(val * 2^f)` (truncation toward zero), then runs
`fracConvert` from `f` to `f` (an identity) and `intConvert`. Modeled on
`ℚ`, which is exact for every double the claims use. -/
def truncToInt (q : ℚ) : Int := if 0 ≤ q then ⌊q⌋ else -⌊-q⌋

/-- Construction of a `Qu_s` of format `F` from the real number `x`; see
`truncToInt`. -/
def fromReal (F : Fmt) (x : ℚ) : Int :=
  intConvert F.i F.f F.s F.om (fracConvert F.f F.f F.qm (truncToInt (x * 2 ^ F.f)))

/-- Dyadic value represented by raw data `d` in format `F`:
`d / 2 ^ fracBits` (the `toDouble` view, exact over `ℚ`). -/
def ratValue (q : Fmt × Int) : ℚ := (q.2 : ℚ) / 2 ^ q.1.f

/-- Range predicate of a format: the data lies between `minVal` and
`maxVal` of a `Qu_s` with those widths. -/
def inRange (F : Fmt) (d : Int) : Prop :=
  (if F.s then -(2 ^ (F.i + F.f)) else 0) ≤ d ∧ d ≤ 2 ^ (F.i + F.f) - 1

instance (F : Fmt) : DecidablePred (inRange F) := fun d =>
  inferInstanceAs (Decidable (_ ∧ _))

/-- A well-formed reducer element for the full-precision analysis: its
data is representable in its format and its overflow mode is not the
symmetric-magnitude saturation (whose in-range action is not the
identity at the most negative value). -/
def okQ (q : Fmt × Int) : Prop := inRange q.1 q.2 ∧ q.1.om ≠ Ofm.satSmgn

instance : DecidablePred okQ := fun q =>
  inferInstanceAs (Decidable (_ ∧ _))

/-- A layer bundle of the tree reducer `Reducer<Args...>`: the template
argument at a layer is either the `FullPrec` tag, a complete `Qu` type
(which overrides every output axis), or `std::nullptr_t` when no argument
was supplied (leaving the default merger in charge). -/
inductive Bundle
  | full
  | given (g : Fmt)
  | plain
deriving DecidableEq

/-- The pairwise addition `Qadd<type>` of the reducer for one layer
bundle: output format from the merger, overridden wholesale by a `given`
bundle. Operates on (format, data) pairs since the intermediate formats
grow along the tree. -/
def QaddBundle (t : Bundle) (a b : Fmt × Int) : Fmt × Int :=
  match t with
  | .full => (AddMerger true a.1 b.1, Qadd a.1 b.1 (AddMerger true a.1 b.1) a.2 b.2)
  | .given g => (g, Qadd a.1 b.1 g a.2 b.2)
  | .plain => (AddMerger false a.1 b.1, Qadd a.1 b.1 (AddMerger false a.1 b.1) a.2 b.2)

/-- One layer of pairwise sums of the variadic `Reducer::reduce_impl`:
elements `2i` and `2i+1` are combined for `i < n / 2`; a trailing
unmatched element is *not* produced here (the odd branch of the source
handles it separately). -/
def pairAdd (t : Bundle) : List (Fmt × Int) → List (Fmt × Int)
  | [] => []
  | [_] => []
  | a :: b :: rest => QaddBundle t a b :: pairAdd t rest

/-- The variadic `Reducer::reduce_impl<layer>(quants...)`: a single
element is returned as-is; an even layer recurses on the pairwise sums;
an odd layer recurses on the pairwise sums of the first `2⌊n/2⌋` elements
and then combines the result with the *last* input element, using the
*current* layer's bundle. `bnd` is the per-layer bundle schedule
(`ReducerTypeSelector`, with the final bundle repeated for deeper
layers encoded by the caller's choice of `bnd`). -/
def reduceVariadic (bnd : Nat → Bundle) : Nat → List (Fmt × Int) → Fmt × Int
  | _, [] => (⟨0, 0, false, .tcpl, .satTcpl⟩, 0)
  | _, [x] => x
  | k, a :: b :: rest =>
    if (a :: b :: rest).length % 2 = 0 then
      reduceVariadic bnd (k + 1) (pairAdd (bnd k) (a :: b :: rest))
    else
      QaddBundle (bnd k)
        (reduceVariadic bnd (k + 1) (pairAdd (bnd k) (a :: b :: rest)))
        ((a :: b :: rest).getLast (by simp))
termination_by k l => l.length
decreasing_by
  all_goals
    have hp : ∀ m : List (Fmt × Int), (pairAdd (bnd k) m).length = m.length / 2 := by
      intro m
      induction m using pairAdd.induct (bnd k) with
      | case1 => simp [pairAdd]
      | case2 x => simp [pairAdd]
      | case3 a b rest ih => simp [pairAdd, ih]; omega
    simp only [hp, List.length_cons]
    omega

/-- The element format of the intermediate vector `res` of the tensor-form
`Reducer::reduce_impl`: the layer's `Qu` type if a bundle was supplied for
this layer, otherwise the input's own element type. -/
def layerFmt (sch : List Fmt) (h : Fmt) : Fmt := sch.headD h

/-- The output format of `Qadd<type>` inside the tensor-form reducer: the
supplied layer type overrides everything; with no bundle (`type =
nullptr_t`) the default `AddMerger` of the element format with itself is
used. -/
def layerPairFmt (sch : List Fmt) (h : Fmt) : Fmt :=
  match sch with
  | [] => AddMerger false h h
  | g :: _ => g

/-- Pairwise sums of one tensor-form layer, landing in the layer's
element format: the add result (of format `Fo`) is assigned into a `res`
element (of format `g`), which re-quantizes via the converting
constructor. -/
def pairAddVec (Fo g h : Fmt) : List Int → List Int
  | [] => []
  | [_] => []
  | a :: b :: rest => convertData Fo g (Qadd h h Fo a b) :: pairAddVec Fo g h rest

/-- One layer of the tensor-form `Reducer::reduce_impl`: `⌊len/2⌋`
pairwise sums; when `len` is odd the last input element is assigned into
the final slot of `res` — an assignment into an element of the layer's
format, hence a re-quantizing conversion. -/
def layerStep (sch : List Fmt) (h : Fmt) (xs : List Int) : List Int :=
  if xs.length % 2 = 0 then pairAddVec (layerPairFmt sch h) (layerFmt sch h) h xs
  else
    pairAddVec (layerPairFmt sch h) (layerFmt sch h) h xs ++
      [convertData h (layerFmt sch h) (xs.getLast?.getD 0)]

/-- Advance of the layer schedule: `ReducerTypeSelector` clamps the layer
index to the last supplied bundle, so the final bundle is reused for all
deeper layers. -/
def schedNext (sch : List Fmt) : List Fmt :=
  if sch.length ≤ 1 then sch else sch.tail

/-- The tensor-form `Reducer::reduce` on a flattened vector: repeated
`layerStep` until one element remains. Returns the element format
together with the data. -/
def reduceVec : List Fmt → Fmt → List Int → Fmt × Int
  | _, h, [] => (h, 0)
  | _, h, [x] => (h, x)
  | sch, h, a :: b :: rest =>
    reduceVec (schedNext sch) (layerFmt sch h) (layerStep sch h (a :: b :: rest))
termination_by _ _ l => l.length
decreasing_by
  all_goals
    have hp : ∀ m : List Int,
        (pairAddVec (layerPairFmt sch h) (layerFmt sch h) h m).length = m.length / 2 := by
      intro m
      induction m using pairAddVec.induct (layerPairFmt sch h) (layerFmt sch h) h with
      | case1 => simp [pairAddVec]
      | case2 x => simp [pairAddVec]
      | case3 a b rest ih => simp [pairAddVec, ih]; omega
    simp only [layerStep]
    split
    · simp only [hp, List.length_cons]; omega
    · rename_i hodd
      simp only [List.length_cons] at hodd
      simp only [List.length_append, hp, List.length_cons, List.length_nil]
      omega

/-- A 2×2 matrix of raw data, the concrete shape on which the in-place
kernels are exercised. All four elements share the tensor's single
element format. -/
structure M2 where
  e00 : Int
  e01 : Int
  e10 : Int
  e11 : Int
deriving DecidableEq

/-- The update `A[i,j] = A[i,j] - A[i,k] * A[j,k]` (section 1 of
`Qpotrf_s::loop_inner`, also the forward/backward updates of
`Qpotrs_s`): default-merged multiply, default-merged subtract, and
assignment back into an element of format `F` (a re-quantizing
conversion, which for same-width operands is a raw copy). -/
def subMulAssign (F : Fmt) (x u v : Int) : Int :=
  convertData (AddMerger false F (MulMerger false F F)) F
    (Qsub F (MulMerger false F F) (AddMerger false F (MulMerger false F F)) x
      (Qmul F F (MulMerger false F F) u v))

/-- The update `x = x * t` for two scalars of the common format `F`
(the column scaling of `Qpotrf_s::loop_sec2` and the diagonal multiplies
of `Qpotrs_s`). -/
def mulAssign (F : Fmt) (x t : Int) : Int :=
  convertData (MulMerger false F F) F (Qmul F F (MulMerger false F F) x t)

/-- Translation of `Qpotrf_s::execute` on a 2×2 matrix. `rsqrtTable`
models `ANUS::Qtable<rsqrtFunc>` — the quantized reciprocal square root
of the raw diagonal datum, kept in the same format; the double-precision
evaluation inside `Qtable` is outside the embedding, so the table is an
uninterpreted function on raw data. The loop over columns is a fold
expression `(loop_inner<J>(A), ...)`: the `return` taken when a pivot is
non-positive leaves only `loop_inner<J>` — the fold continues with the
next column regardless. -/
def Qpotrf2 (F : Fmt) (rsqrtTable : Int → Int) (A : M2) : M2 :=
  -- column J = 0: no prior columns, pivot test on e00, then scale and
  -- store the reciprocal square root on the diagonal
  let A1 :=
    if A.e00 ≤ 0 then A
    else
      let t := rsqrtTable A.e00
      let As := { A with e00 := mulAssign F A.e00 t, e10 := mulAssign F A.e10 t }
      { As with e00 := t }
  -- column J = 1: subtract the outer-product contribution of column 0,
  -- pivot test on the updated e11, then scale and store
  let A2 := { A1 with e11 := subMulAssign F A1.e11 A1.e10 A1.e10 }
  if A2.e11 ≤ 0 then A2
  else
    let t := rsqrtTable A2.e11
    let A3 := { A2 with e11 := mulAssign F A2.e11 t }
    { A3 with e11 := t }

/-- Translation of `Qpotrs_s::execute` on a 2×2 factor `L` and a length-2
right-hand side, both of element format `F`: forward substitution
(`b[i] -= L[i,j]*b[j]` for `j < i`, then `b[i] *= L[i,i]`), then backward
substitution (`b[i] -= L[j,i]*b[j]` for `j > i`, then `b[i] *= L[i,i]`).
Only subtraction and multiplication occur; the diagonal is multiplied,
never divided by. -/
def Qpotrs2 (F : Fmt) (L : M2) (b : Int × Int) : Int × Int :=
  -- forward, i = 0: no prior rows
  let b0a := mulAssign F b.1 L.e00
  -- forward, i = 1
  let b1a := subMulAssign F b.2 L.e10 b0a
  let b1b := mulAssign F b1a L.e11
  -- backward, i = 1: no later rows
  let b1c := mulAssign F b1b L.e11
  -- backward, i = 0
  let b0b := subMulAssign F b0a L.e10 b1c
  let b0c := mulAssign F b0b L.e00
  (b0c, b1c)

/-- The mutable state a `Qgemul` call touches: the destination tensor and
the class-static intermediate vector `Qgemul_s::vecC` (a namespace-scope
buffer shared by every call to the same instantiation). -/
structure GemulState where
  C : M2
  vecC : Int × Int
deriving DecidableEq

/-- One output cell of `Qgemul_s::execute` (no transposes, empty
`addArgs`/`mulArgs` bundles): the two products `Qmul(A[i,k], B[k,j])`
are assigned into `vecC` — whose element type is the *capped* merger
`resType` — and the cell value is `Qreduce` of that vector, assigned
into `C[i,j]`. Returns the cell datum together with the `vecC` contents
the cell leaves behind. -/
def gemulCell (F : Fmt) (x0 x1 y0 y1 : Int) : Int × (Int × Int) :=
  let mU := MulMerger false F F
  let mF := capFmt mU
  let w0 := convertData mU mF (Qmul F F mU x0 y0)
  let w1 := convertData mU mF (Qmul F F mU x1 y1)
  let r := reduceVec [] mF [w0, w1]
  (convertData r.1 F r.2, (w0, w1))

/-- Translation of `Qgemul_s::execute` for 2×2 operands of a common
element format, as a transformer of the touched state: every cell of `C`
is overwritten with the reduced dot product, and the static `vecC` ends
up holding the products of the last cell `(1,1)`. -/
def Qgemul2 (F : Fmt) (A B : M2) (s : GemulState) : GemulState :=
  let p00 := gemulCell F A.e00 A.e01 B.e00 B.e10
  let p01 := gemulCell F A.e00 A.e01 B.e01 B.e11
  let p10 := gemulCell F A.e10 A.e11 B.e00 B.e10
  let p11 := gemulCell F A.e10 A.e11 B.e01 B.e11
  { C := ⟨p00.1, p01.1, p10.1, p11.1⟩, vecC := p11.2 }

/-- The nearest-point choice of the specification's rounding table for
`RND::ZERO`, written from the spec's words: choose the nearer of
`floor`/`ceil`, and at an exact tie whichever of the two is closer to
zero; the chosen value is right-shifted by `d`. Used only to compare
against the source's `fracConvert` — see claim C4. -/
def zeroSpecConvert (fromF toF : Nat) (v : Int) : Int :=
  if fromF ≤ toF then v * 2 ^ (toF - fromF)
  else
    let fl := floorMask (fromF - toF) v
    let ce := fl + 2 ^ (fromF - toF)
    let pick :=
      if v - fl < ce - v then fl
      else if ce - v < v - fl then ce
      else if |fl| ≤ |ce| then fl else ce
    asr (fromF - toF) pick

/-- The specification's symmetric width-reduction amount, written from
the spec's words: `⌈(i_out + f_out − 31 + 1) / 2⌉`, i.e. the ceiling of
`(i + f − 30) / 2`. Used only to compare against the source's cap — see
claim C3. -/
def specCapAmount (i f : Int) : Int := Int.fdiv (i + f - 30 + 1) 2

/-- The specification's capped integer width (one application of the
symmetric reduction; a single application already restores the
invariant). -/
def specToIntFinal (i f : Int) : Int :=
  if 31 < i + f then i - specCapAmount i f else i

/-- Truncation toward zero, written from the spec's words for claim C10:
the magnitude quotient `|a| / |b|` (integer floor division of naturals)
carrying the sign of the exact quotient. -/
def tdivSpec (a b : Int) : Int :=
  if (0 ≤ a) = (0 ≤ b) then ((a.natAbs / b.natAbs : Nat) : Int)
  else -((a.natAbs / b.natAbs : Nat) : Int)

/-! ## Helper lemmas -/

/-- C++ `/` on integers truncates toward zero: `Int.tdiv` is the
magnitude quotient carrying the sign of the exact quotient. -/
theorem tdiv_eq_tdivSpec (a b : Int) : a.tdiv b = tdivSpec a b := by
  have hns : ∀ k : Nat, ¬ (0 : Int) ≤ Int.negSucc k := fun k =>
    not_le.mpr (Int.negSucc_lt_zero k)
  rcases a with m | m <;> rcases b with n | n
  · rw [tdivSpec, if_pos (by simp)]
    rfl
  · rw [tdivSpec, if_neg (by simp [hns n])]
    rfl
  · rw [tdivSpec, if_neg (by simp [hns m])]
    rfl
  · rw [tdivSpec, if_pos (by simp [hns m, hns n])]
    rfl

/-- The mask-based floor of the casting algebra is `2^d` times the floor
quotient. -/
theorem floorMask_eq (d : Nat) (v : Int) :
    floorMask d v = 2 ^ d * (v / 2 ^ d) := by
  have h := Int.emod_def v (2 ^ d)
  simp only [floorMask]
  omega

/-! ## C3: the symmetric width cap -/

/-- C3 (counterexample): at merged widths `i_out = 20`, `f_out = 13`
(sum 33), the source reduces each width by `(33 − 30) / 2 = 1`
(truncating division), giving `(19, 12)`; the claim's amount
`⌈(33 − 31 + 1) / 2⌉ = 2` would give `(18, 11)`. -/
theorem c3_cap_counterexample :
    toIntFinal 20 13 = 19 ∧ toFracFinal 20 13 = 12 ∧
    specToIntFinal 20 13 = 18 ∧ (19 : Int) ≠ 18 := by
  refine ⟨by decide, by decide, ?_, by decide⟩
  decide

/-- C3 (amended): when the merged widths exceed 31, both are reduced by
the same amount — `⌈(i_out + f_out − 31) / 2⌉`, i.e. the C++ truncating
`(i_out + f_out − 31 + 1) / 2` — and a single application of the
reduction already restores `i_out + f_out ≤ 31` (indeed lands in
`{30, 31}`), so no repetition is ever needed. -/
theorem c3_cap_amended (i f : Int) (h : 31 < i + f) :
    30 ≤ toIntFinal i f + toFracFinal i f ∧
    toIntFinal i f + toFracFinal i f ≤ 31 ∧
    i - toIntFinal i f = f - toFracFinal i f := by
  simp only [toIntFinal, toFracFinal, if_pos h]
  omega

/-- C3 (witness): the amended cap facts at the concrete widths
`(20, 13)`. -/
theorem c3_cap_amended_witness :
    (31 < (20 : Int) + 13) ∧
    (30 ≤ toIntFinal 20 13 + toFracFinal 20 13 ∧
     toIntFinal 20 13 + toFracFinal 20 13 ≤ 31 ∧
     (20 : Int) - toIntFinal 20 13 = 13 - toFracFinal 20 13) :=
  ⟨by decide, c3_cap_amended 20 13 (by decide)⟩

/-! ## C4: the RND::ZERO rounding mode -/

/-- C4 (counterexample): narrowing `v = 3` by `d = 2` fractional bits,
the nearer of `floor = 0` and `ceil = 4` is `ceil` (distances 3 and 1),
so the specification's choice yields `1`; the source tests only the sign
of `floor + ceil` and returns `floor >> d = 0`. -/
theorem c4_zero_counterexample :
    fracConvert 2 0 Rnd.zero 3 = 0 ∧ zeroSpecConvert 2 0 3 = 1 ∧
    (0 : Int) ≠ 1 := by
  refine ⟨by decide, by decide, by decide⟩

/-- C4 (amended): the source's `RND::ZERO` narrowing ignores which
endpoint is nearer — it picks `floor` exactly when `floor + ceil > 0`
and `ceil` otherwise. Arithmetically the result is the floor quotient
for nonnegative inputs and the floor quotient plus one for negative
inputs, i.e. truncation toward zero except that exact negative multiples
of `2^d` overshoot by one. -/
theorem c4_zero_amended (fromF toF : Nat) (v : Int) (h : toF < fromF) :
    fracConvert fromF toF Rnd.zero v =
      if 0 ≤ v then Int.fdiv v (2 ^ (fromF - toF))
      else Int.fdiv v (2 ^ (fromF - toF)) + 1 := by
  have hd : (0 : Int) < 2 ^ (fromF - toF) := by positivity
  have hne : (2 : Int) ^ (fromF - toF) ≠ 0 := by omega
  have hnot : ¬ fromF ≤ toF := by omega
  have hfl : floorMask (fromF - toF) v = 2 ^ (fromF - toF) * (v / 2 ^ (fromF - toF)) :=
    floorMask_eq _ v
  have hfd : Int.fdiv v (2 ^ (fromF - toF)) = v / 2 ^ (fromF - toF) :=
    Int.fdiv_eq_ediv v (le_of_lt hd)
  have hfl2 : Int.fdiv (floorMask (fromF - toF) v) (2 ^ (fromF - toF)) =
      v / 2 ^ (fromF - toF) := by
    rw [hfl, Int.mul_fdiv_cancel_left _ hne]
  have hce : Int.fdiv (floorMask (fromF - toF) v + 2 ^ (fromF - toF)) (2 ^ (fromF - toF)) =
      v / 2 ^ (fromF - toF) + 1 := by
    rw [hfl, show (2 : Int) ^ (fromF - toF) * (v / 2 ^ (fromF - toF)) + 2 ^ (fromF - toF) =
      2 ^ (fromF - toF) * (v / 2 ^ (fromF - toF) + 1) from by ring,
      Int.mul_fdiv_cancel_left _ hne]
  simp only [fracConvert, if_neg hnot, asr]
  by_cases hv : 0 ≤ v
  · have hq : 0 ≤ v / 2 ^ (fromF - toF) := Int.ediv_nonneg hv (le_of_lt hd)
    rw [if_pos (by rw [hfl]; nlinarith), if_pos hv, hfl2, hfd]
  · have hv1 : v ≤ -1 := by omega
    have hq : v / 2 ^ (fromF - toF) ≤ -1 := by
      by_contra hq
      push_neg at hq
      have hq0 : 0 ≤ v / 2 ^ (fromF - toF) := by omega
      have := Int.emod_nonneg v hne
      have := Int.emod_def v (2 ^ (fromF - toF))
      nlinarith
    rw [if_neg (by rw [hfl]; nlinarith), if_neg hv, hce, hfd]

/-- C4 (witness): the amended characterization evaluated at
`fromF = 3`, `toF = 1`, `v = -7`: the source returns
`fdiv (-7) 4 + 1 = -1`. -/
theorem c4_zero_amended_witness :
    (1 : Nat) < 3 ∧ fracConvert 3 1 Rnd.zero (-7) = -1 :=
  ⟨by decide, by rw [c4_zero_amended 3 1 (-7) (by decide)]; decide⟩

/-! ## C5: division by zero -/

/-- C5: a zero divisor makes both the static and the dynamic scalar
`Qdiv_s::div` return raw data `0` in the derived output format, for
every pair of operand formats and every numerator; no error path
exists. -/
theorem c5_div_by_zero (F1 F2 Fo : Fmt) (d1 : Int) :
    Qdiv F1 F2 Fo d1 0 = 0 ∧ (QdivDynamic F1 F2 d1 0).2 = 0 := by
  constructor
  · simp [Qdiv]
  · simp [QdivDynamic]

/-! ## C10: the division kernel rounds by truncation only -/

/-- C10: for a nonzero divisor the static `Qdiv_s::div` equals the
overflow conversion of the truncated-toward-zero quotient of the
aligned numerator (numerator shifted left by `max(f1,f2) − f1` plus
`f_out` bits) by the aligned denominator; the output rounding mode is
never consulted (replacing it leaves the result unchanged), only the
overflow mode acts. -/
theorem c10_div_truncation (F1 F2 Fo : Fmt) (d1 d2 : Int) (q : Rnd)
    (h : d2 ≠ 0) :
    Qdiv F1 F2 Fo d1 d2 =
      intConvert Fo.i Fo.f Fo.s Fo.om
        (tdivSpec (d1 * 2 ^ ((max F1.f F2.f - F1.f) + Fo.f))
          (d2 * 2 ^ (max F1.f F2.f - F2.f))) ∧
    Qdiv F1 F2 { Fo with qm := q } d1 d2 = Qdiv F1 F2 Fo d1 d2 := by
  constructor
  · simp [Qdiv, if_neg h, tdiv_eq_tdivSpec]
  · simp [Qdiv]

/-- C10 (witness): the truncation characterization at the concrete call
`2.0 / 1.0` in format `(4, 4, signed, TCPL, SAT::TCPL)` with the default
merged output format. -/
theorem c10_div_truncation_witness :
    ((16 : Int) ≠ 0) ∧
    (Qdiv ⟨4, 4, true, .tcpl, .satTcpl⟩ ⟨4, 4, true, .tcpl, .satTcpl⟩
        (AddMerger false ⟨4, 4, true, .tcpl, .satTcpl⟩ ⟨4, 4, true, .tcpl, .satTcpl⟩)
        32 16 =
      intConvert (AddMerger false ⟨4, 4, true, .tcpl, .satTcpl⟩ ⟨4, 4, true, .tcpl, .satTcpl⟩).i
        (AddMerger false ⟨4, 4, true, .tcpl, .satTcpl⟩ ⟨4, 4, true, .tcpl, .satTcpl⟩).f
        (AddMerger false ⟨4, 4, true, .tcpl, .satTcpl⟩ ⟨4, 4, true, .tcpl, .satTcpl⟩).s
        (AddMerger false ⟨4, 4, true, .tcpl, .satTcpl⟩ ⟨4, 4, true, .tcpl, .satTcpl⟩).om
        (tdivSpec (32 * 2 ^ ((max 4 4 - 4) + (AddMerger false ⟨4, 4, true, .tcpl, .satTcpl⟩ ⟨4, 4, true, .tcpl, .satTcpl⟩).f))
          (16 * 2 ^ (max 4 4 - 4)))) :=
  ⟨by decide,
    (c10_div_truncation ⟨4, 4, true, .tcpl, .satTcpl⟩ ⟨4, 4, true, .tcpl, .satTcpl⟩
      (AddMerger false ⟨4, 4, true, .tcpl, .satTcpl⟩ ⟨4, 4, true, .tcpl, .satTcpl⟩)
      32 16 Rnd.zero (by decide)).1⟩

/-! ## C1: Qpotrf on a non-positive pivot -/

/-- C1: the `return` taken by `Qpotrf_s::loop_inner` on a non-positive
pivot does not stop the factorization — the column fold continues. On
the 2×2 matrix with raw data `[[0, 16], [16, 16]]` in format
`(4, 4, signed, TCPL, SAT::TCPL)` the pivot of column 0 fails
(`A[0,0] = 0`), yet column 1 is still updated: `A[1,1]` becomes
`A[1,1] - A[1,0]·A[1,0] = 0`, changed from its initial raw `16`. The
result is independent of the reciprocal-square-root table, which is
never consulted on this input. This contradicts both the specification
and the in-source reference implementation, which returns from the whole
routine. -/
theorem c1_qpotrf_continues_after_failed_pivot :
    ∀ rsqrtTable : Int → Int,
      Qpotrf2 ⟨4, 4, true, .tcpl, .satTcpl⟩ rsqrtTable ⟨0, 16, 16, 16⟩ =
        ⟨0, 16, 16, 0⟩ ∧
      (⟨0, 16, 16, 0⟩ : M2).e11 ≠ (⟨0, 16, 16, 16⟩ : M2).e11 := by
  intro tab
  refine ⟨?_, by decide⟩
  have h1 : ((⟨0, 16, 16, 16⟩ : M2)).e00 ≤ 0 := by decide
  simp only [Qpotrf2, if_pos h1]
  norm_num [subMulAssign, mulAssign, convertData, Qsub, Qmul, MulMerger,
    AddMerger, mergeRnd, mergeOfm, intConvert, fracConvert, asr, floorMask]
  split
  · decide
  · rename_i hcond
    exact absurd (by decide) hcond

/-! ## C2: the FullPrec scalar multiply scenario -/

/-- C2 (counterexample): for operands of format
`(12, 8, signed, TCPL, SAT::TCPL)`, the `FullPrec` `MulMerger` derives
`toInt = 24`, `toFrac = 16` — and the static `Qmul_s::mul` instantiates
its result at exactly these *uncapped* widths, whose total `40` violates
the `static_assert` bound `intBits + fracBits ≤ 31`. No value of format
`(24, 16, …)` can exist; the call does not compile, so it cannot return
the claimed value. -/
theorem c2_fullprec_mul_counterexample :
    MulMerger true ⟨12, 8, true, .tcpl, .satTcpl⟩ ⟨12, 8, true, .tcpl, .satTcpl⟩ =
      ⟨24, 16, true, .tcpl, .satTcpl⟩ ∧
    ¬ validFmt ⟨24, 16, true, .tcpl, .satTcpl⟩ := by
  refine ⟨by decide, ?_⟩
  decide

/-- C2 (amended): the merger's own width cap (its `resType`) reduces
`(24, 16)` to `(19, 11)`; the operands constructed from `3.0` and `0.5`
carry raw data `768` and `128`; and the multiply computed into the
capped format yields raw `3072`, whose real view is `3072 / 2^11 =
1.5`. So the product value of the scenario is right, but the format is
the capped `(19, 11)` — and the shipped static `mul`, which bypasses the
cap, is rejected at compile time. -/
theorem c2_fullprec_mul_amended :
    capFmt (MulMerger true ⟨12, 8, true, .tcpl, .satTcpl⟩ ⟨12, 8, true, .tcpl, .satTcpl⟩) =
      ⟨19, 11, true, .tcpl, .satTcpl⟩ ∧
    fromReal ⟨12, 8, true, .tcpl, .satTcpl⟩ 3 = 768 ∧
    fromReal ⟨12, 8, true, .tcpl, .satTcpl⟩ (1 / 2) = 128 ∧
    Qmul ⟨12, 8, true, .tcpl, .satTcpl⟩ ⟨12, 8, true, .tcpl, .satTcpl⟩
      ⟨19, 11, true, .tcpl, .satTcpl⟩ 768 128 = 3072 ∧
    ratValue (⟨19, 11, true, .tcpl, .satTcpl⟩, 3072) = 3 / 2 := by
  refine ⟨by decide, ?_, ?_, by decide, ?_⟩
  · norm_num [fromReal, truncToInt, intConvert, fracConvert]
  · norm_num [fromReal, truncToInt, intConvert, fracConvert]
  · norm_num [ratValue]

/-! ## C6: the odd carry of the tree reducer -/

/-- C6 (counterexample): a tensor-form reduction layer with element
format `(4, 4, signed, TCPL, SAT::TCPL)` and layer bundle
`(4, 2, signed, TCPL, SAT::TCPL)` on the odd-length data `[16, 16, 1]`
assigns the unmatched element into the layer's buffer, re-quantizing it:
the carried raw `1` (value `1/16`) becomes raw `0` (value `0`). The
element is not carried forward unchanged. -/
theorem c6_carry_counterexample :
    layerStep [⟨4, 2, true, .tcpl, .satTcpl⟩] ⟨4, 4, true, .tcpl, .satTcpl⟩
      [16, 16, 1] = [8, 0] ∧
    ratValue (⟨4, 2, true, .tcpl, .satTcpl⟩, 0) ≠
      ratValue (⟨4, 4, true, .tcpl, .satTcpl⟩, 1) := by
  refine ⟨by decide, by norm_num [ratValue]⟩

/-- C6 (amended): in the tensor form, the unmatched element of an
odd-length layer is assigned into the next layer's buffer, which
re-quantizes it into the layer's element format; the raw data is
carried unchanged exactly when that format agrees with the element's
own `(intBits, fracBits, isSigned)` triple, in which case the
converting constructor copies it. (In the variadic form the unmatched
element is instead held back and combined with the final result of the
remaining reduction, using the current layer's bundle.) -/
theorem c6_carry_amended (sch : List Fmt) (h : Fmt) (xs : List Int)
    (hne : xs ≠ []) (hodd : xs.length % 2 = 1)
    (hi : h.i = (layerFmt sch h).i) (hf : h.f = (layerFmt sch h).f)
    (hs : h.s = (layerFmt sch h).s) :
    (layerStep sch h xs).getLast? = xs.getLast? := by
  rw [layerStep, if_neg (by omega)]
  rcases hx : xs.getLast? with _ | y
  · exact absurd (List.getLast?_eq_none_iff.mp hx) hne
  · rw [List.getLast?_concat]
    simp [convertData, hi, hf, hs]

/-- C6 (witness): the amended carry fact at a concrete layer — no
bundle supplied, element format `(4, 4, signed, TCPL, SAT::TCPL)`, data
`[1, 2, 3]`: the carried last element survives with raw data `3`. -/
theorem c6_carry_amended_witness :
    (([1, 2, 3] : List Int) ≠ [] ∧ ([1, 2, 3] : List Int).length % 2 = 1) ∧
    (layerStep [] ⟨4, 4, true, .tcpl, .satTcpl⟩ [1, 2, 3]).getLast? =
      ([1, 2, 3] : List Int).getLast? :=
  ⟨⟨by decide, by decide⟩,
    c6_carry_amended [] ⟨4, 4, true, .tcpl, .satTcpl⟩ [1, 2, 3]
      (by decide) (by decide) rfl rfl rfl⟩

/-! ## C9: the state written by Qgemul -/

/-- C9 (counterexample): a `Qgemul` call writes more state than its
destination: with `A = B = diag(1.0)` in format
`(4, 4, signed, TCPL, SAT::TCPL)` and the class-static scratch `vecC`
initially zero, after the call `vecC` holds the products of the last
output cell, `(0, 16) ≠ (0, 0)`. The library therefore does hold shared
mutable state written by the call besides the random generator. -/
theorem c9_frame_counterexample :
    (Qgemul2 ⟨4, 4, true, .tcpl, .satTcpl⟩ ⟨16, 0, 0, 16⟩ ⟨16, 0, 0, 16⟩
      ⟨⟨0, 0, 0, 0⟩, (0, 0)⟩).vecC = (0, 16) ∧
    ((0, 16) : Int × Int) ≠ (0, 0) := by
  constructor
  · norm_num [Qgemul2, gemulCell, reduceVec, layerStep, layerFmt, layerPairFmt,
      schedNext, pairAddVec, convertData, Qmul, Qadd, MulMerger, AddMerger,
      capFmt, mergeRnd, mergeOfm, intConvert, fracConvert, asr, floorMask]
    all_goals decide
  · decide

/-- C9 (amended): a `Qgemul` call writes its destination and the
instantiation's static scratch `vecC`, and nothing else: the inputs are
only read (they are not part of the mutable state of the embedding),
the resulting state is independent of the state before the call, each
cell of `C` receives the reduced dot product of its row and column, and
`vecC` is left holding the two products of the last cell `(1,1)`. Two
calls interfere through `vecC` when they share the instantiation, even
with disjoint destinations. -/
theorem c9_frame_amended (F : Fmt) (A B : M2) (s t : GemulState) :
    Qgemul2 F A B s = Qgemul2 F A B t ∧
    (Qgemul2 F A B s).C.e00 =
      convertData (capFmt (MulMerger false F F)) F
        (convertData (AddMerger false (capFmt (MulMerger false F F)) (capFmt (MulMerger false F F)))
          (capFmt (MulMerger false F F))
          (Qadd (capFmt (MulMerger false F F)) (capFmt (MulMerger false F F))
            (AddMerger false (capFmt (MulMerger false F F)) (capFmt (MulMerger false F F)))
            (convertData (MulMerger false F F) (capFmt (MulMerger false F F))
              (Qmul F F (MulMerger false F F) A.e00 B.e00))
            (convertData (MulMerger false F F) (capFmt (MulMerger false F F))
              (Qmul F F (MulMerger false F F) A.e01 B.e10)))) ∧
    (Qgemul2 F A B s).vecC =
      (convertData (MulMerger false F F) (capFmt (MulMerger false F F))
        (Qmul F F (MulMerger false F F) A.e10 B.e01),
       convertData (MulMerger false F F) (capFmt (MulMerger false F F))
        (Qmul F F (MulMerger false F F) A.e11 B.e11)) := by
  refine ⟨rfl, ?_, rfl⟩
  simp only [Qgemul2, gemulCell]
  rw [reduceVec, layerStep]
  simp [pairAddVec, layerFmt, layerPairFmt, schedNext, reduceVec]

/-! ## C8: reciprocal-square-root storage and a division-free solve -/

/-- C8: when both pivots of the 2×2 factorization pass the positivity
test, `Qpotrf` stores `t = Qtable(rsqrt)(pivot)` itself on the diagonal
— `A[0,0]` becomes `tab A[0,0]` and `A[1,1]` becomes `tab` of the
updated pivot — after scaling the below-diagonal entry by `t`
(`A[1,0]` becomes `A[1,0] * t`); the above-diagonal entry is untouched.
Consequently `Qpotrs` finishes each solution entry by *multiplying* it
with the stored diagonal entry (`b[i] *= L[i,i]`): its two outputs are
of the form `u * L[0,0]` and `v * L[1,1]` with the stored reciprocal
square roots as the factors — no division occurs anywhere in the
solve. -/
theorem c8_potrf_reciprocal_storage (F : Fmt) (tab : Int → Int) (A : M2)
    (b : Int × Int)
    (h0 : 0 < A.e00)
    (h1 : 0 < subMulAssign F A.e11 (mulAssign F A.e10 (tab A.e00))
            (mulAssign F A.e10 (tab A.e00))) :
    (Qpotrf2 F tab A).e00 = tab A.e00 ∧
    (Qpotrf2 F tab A).e10 = mulAssign F A.e10 (tab A.e00) ∧
    (Qpotrf2 F tab A).e01 = A.e01 ∧
    (Qpotrf2 F tab A).e11 =
      tab (subMulAssign F A.e11 (mulAssign F A.e10 (tab A.e00))
            (mulAssign F A.e10 (tab A.e00))) ∧
    (∃ u v : Int,
      Qpotrs2 F (Qpotrf2 F tab A) b =
        (mulAssign F u ((Qpotrf2 F tab A).e00),
         mulAssign F v ((Qpotrf2 F tab A).e11))) := by
  have hne0 : ¬ A.e00 ≤ 0 := not_le.mpr h0
  have hne1 : ¬ subMulAssign F A.e11 (mulAssign F A.e10 (tab A.e00))
      (mulAssign F A.e10 (tab A.e00)) ≤ 0 := not_le.mpr h1
  have hQ : Qpotrf2 F tab A =
      ⟨tab A.e00, A.e01, mulAssign F A.e10 (tab A.e00),
        tab (subMulAssign F A.e11 (mulAssign F A.e10 (tab A.e00))
          (mulAssign F A.e10 (tab A.e00)))⟩ := by
    simp [Qpotrf2, hne0, hne1]
  rw [hQ]
  refine ⟨rfl, rfl, rfl, rfl, ?_⟩
  refine ⟨subMulAssign F (mulAssign F b.1 (tab A.e00))
      (mulAssign F A.e10 (tab A.e00))
      (mulAssign F (mulAssign F
          (subMulAssign F b.2 (mulAssign F A.e10 (tab A.e00))
            (mulAssign F b.1 (tab A.e00)))
          (tab (subMulAssign F A.e11 (mulAssign F A.e10 (tab A.e00))
            (mulAssign F A.e10 (tab A.e00)))))
        (tab (subMulAssign F A.e11 (mulAssign F A.e10 (tab A.e00))
          (mulAssign F A.e10 (tab A.e00))))),
    mulAssign F (subMulAssign F b.2 (mulAssign F A.e10 (tab A.e00))
        (mulAssign F b.1 (tab A.e00)))
      (tab (subMulAssign F A.e11 (mulAssign F A.e10 (tab A.e00))
        (mulAssign F A.e10 (tab A.e00)))), rfl⟩

/-- C8 (witness): the storage convention evaluated on the concrete
matrix `[[1.0, 1.0], [1.0, 2.5]]` (raw `[[16,16],[16,40]]`) in format
`(4, 4, signed, TCPL, SAT::TCPL)` with the identity table: both pivots
pass, the diagonal receives the table outputs `16` and `24`. -/
theorem c8_potrf_reciprocal_storage_witness :
    ((0 : Int) < 16 ∧
      0 < subMulAssign ⟨4, 4, true, .tcpl, .satTcpl⟩ 40
            (mulAssign ⟨4, 4, true, .tcpl, .satTcpl⟩ 16 16)
            (mulAssign ⟨4, 4, true, .tcpl, .satTcpl⟩ 16 16)) ∧
    (Qpotrf2 ⟨4, 4, true, .tcpl, .satTcpl⟩ (fun d => d) ⟨16, 16, 16, 40⟩).e00 = 16 ∧
    (Qpotrf2 ⟨4, 4, true, .tcpl, .satTcpl⟩ (fun d => d) ⟨16, 16, 16, 40⟩).e11 = 24 := by
  have h := c8_potrf_reciprocal_storage ⟨4, 4, true, .tcpl, .satTcpl⟩ (fun d => d)
    ⟨16, 16, 16, 40⟩ (16, 16) (by decide) (by decide)
  refine ⟨⟨by decide, by decide⟩, ?_, ?_⟩
  · rw [h.1]
  · rw [h.2.2.2.1]
    decide

/-! ## C7: the reducer under FullPrec -/

/-- A fraction-width-preserving cast is the identity in every rounding
mode. -/
theorem fracConvert_self (f : Nat) (m : Rnd) (v : Int) :
    fracConvert f f m v = v := by
  cases m <;> simp [fracConvert, asr, Int.fdiv_one]

/-- Every overflow conversion except the symmetric-magnitude saturation
is the identity on in-range values. -/
theorem intConvert_eq_self (ti tf : Nat) (s : Bool) (om : Ofm) (v : Int)
    (hom : om ≠ Ofm.satSmgn)
    (h1 : (if s then -(2 ^ (ti + tf)) else 0) ≤ v)
    (h2 : v ≤ 2 ^ (ti + tf) - 1) :
    intConvert ti tf s om v = v := by
  have hp : (0 : Int) < 2 ^ (ti + tf) := by positivity
  cases om with
  | satTcpl =>
    cases s <;> simp_all [intConvert] <;> omega
  | satZero =>
    cases s <;> simp_all [intConvert] <;> omega
  | satSmgn => exact absurd rfl hom
  | wrpTcpl =>
    have hps : (2 : Int) ^ (ti + tf + 1) = 2 * 2 ^ (ti + tf) := by
      rw [pow_succ]; ring
    cases s with
    | false =>
      simp only [Bool.false_eq_true, if_false] at h1
      simp only [intConvert, Bool.false_eq_true, if_false]
      exact Int.emod_eq_of_lt h1 (by omega)
    | true =>
      rw [if_pos rfl] at h1
      have hshape : intConvert ti tf true .wrpTcpl v =
          (if 2 ^ (ti + tf) ≤ v % 2 ^ (ti + tf + 1)
           then v % 2 ^ (ti + tf + 1) - 2 ^ (ti + tf + 1)
           else v % 2 ^ (ti + tf + 1)) := rfl
      rw [hshape]
      by_cases hv : 0 ≤ v
      · have hmod : v % 2 ^ (ti + tf + 1) = v := Int.emod_eq_of_lt hv (by omega)
        rw [hmod, if_neg (by omega)]
      · have h3 := Int.add_mul_emod_self_left (a := v) (b := (2 : Int) ^ (ti + tf + 1)) (c := 1)
        rw [mul_one] at h3
        have hmod : v % 2 ^ (ti + tf + 1) = v + 2 ^ (ti + tf + 1) := by
          rw [← h3]
          exact Int.emod_eq_of_lt (by omega) (by omega)
        rw [hmod, if_pos (by omega)]
        omega

/-- The merged overflow mode of two non-SMGN modes is not SMGN. -/
theorem mergeOfm_ne_smgn (a b : Ofm) (ha : a ≠ Ofm.satSmgn)
    (hb : b ≠ Ofm.satSmgn) : mergeOfm a b ≠ Ofm.satSmgn := by
  rw [mergeOfm]
  split
  · exact ha
  · simp

/-- In-range data lies between `-2^(i+f)` and `2^(i+f) - 1` regardless
of signedness. -/
theorem inRange_bounds (F : Fmt) (d : Int) (h : inRange F d) :
    -(2 ^ (F.i + F.f)) ≤ d ∧ d ≤ 2 ^ (F.i + F.f) - 1 := by
  obtain ⟨h1, h2⟩ := h
  have hp : (0 : Int) < 2 ^ (F.i + F.f) := by positivity
  refine ⟨?_, h2⟩
  cases hs : F.s <;> rw [hs] at h1 <;> simp at h1 <;> omega

/-- A full-precision pairwise add of two well-formed elements is exact:
its raw output is the aligned integer sum, the output is in range and
well-formed, and the output fraction width is the common alignment
width. -/
theorem QaddBundle_full_spec (a b : Fmt × Int) (ha : okQ a) (hb : okQ b) :
    (QaddBundle .full a b).2 =
      a.2 * 2 ^ (max a.1.f b.1.f - a.1.f) + b.2 * 2 ^ (max a.1.f b.1.f - b.1.f) ∧
    okQ (QaddBundle .full a b) ∧
    (QaddBundle .full a b).1.f = max a.1.f b.1.f := by
  obtain ⟨F1, d1⟩ := a
  obtain ⟨F2, d2⟩ := b
  obtain ⟨ha1, ha2⟩ := ha
  obtain ⟨hb1, hb2⟩ := hb
  have hf1 : F1.f ≤ max F1.f F2.f := le_max_left _ _
  have hf2 : F2.f ≤ max F1.f F2.f := le_max_right _ _
  have e1 : (2 : Int) ^ (F1.i + F1.f) * 2 ^ (max F1.f F2.f - F1.f) =
      2 ^ (F1.i + max F1.f F2.f) := by
    rw [← pow_add]; congr 1; omega
  have e2 : (2 : Int) ^ (F2.i + F2.f) * 2 ^ (max F1.f F2.f - F2.f) =
      2 ^ (F2.i + max F1.f F2.f) := by
    rw [← pow_add]; congr 1; omega
  have p1 : (0 : Int) < 2 ^ (max F1.f F2.f - F1.f) := by positivity
  have p2 : (0 : Int) < 2 ^ (max F1.f F2.f - F2.f) := by positivity
  have le1 : (2 : Int) ^ (F1.i + max F1.f F2.f) ≤
      2 ^ (max F1.i F2.i + max F1.f F2.f) :=
    pow_le_pow_right (by norm_num) (by omega)
  have le2 : (2 : Int) ^ (F2.i + max F1.f F2.f) ≤
      2 ^ (max F1.i F2.i + max F1.f F2.f) :=
    pow_le_pow_right (by norm_num) (by omega)
  have hA := inRange_bounds F1 d1 ha1
  have hB := inRange_bounds F2 d2 hb1
  have mu1 : d1 * 2 ^ (max F1.f F2.f - F1.f) ≤
      2 ^ (F1.i + max F1.f F2.f) - 2 ^ (max F1.f F2.f - F1.f) := by
    have h := mul_le_mul_of_nonneg_right hA.2 (le_of_lt p1)
    rw [sub_mul, one_mul, e1] at h
    exact h
  have mu2 : d2 * 2 ^ (max F1.f F2.f - F2.f) ≤
      2 ^ (F2.i + max F1.f F2.f) - 2 ^ (max F1.f F2.f - F2.f) := by
    have h := mul_le_mul_of_nonneg_right hB.2 (le_of_lt p2)
    rw [sub_mul, one_mul, e2] at h
    exact h
  have ml1 : -(2 ^ (F1.i + max F1.f F2.f)) ≤ d1 * 2 ^ (max F1.f F2.f - F1.f) := by
    have h := mul_le_mul_of_nonneg_right hA.1 (le_of_lt p1)
    rw [neg_mul, e1] at h
    exact h
  have ml2 : -(2 ^ (F2.i + max F1.f F2.f)) ≤ d2 * 2 ^ (max F1.f F2.f - F2.f) := by
    have h := mul_le_mul_of_nonneg_right hB.1 (le_of_lt p2)
    rw [neg_mul, e2] at h
    exact h
  have epow : (2 : Int) ^ (max F1.i F2.i + 1 + max F1.f F2.f) =
      2 ^ (max F1.i F2.i + max F1.f F2.f) * 2 := by
    rw [show max F1.i F2.i + 1 + max F1.f F2.f =
      (max F1.i F2.i + max F1.f F2.f) + 1 from by omega, pow_succ]
  have hSup : d1 * 2 ^ (max F1.f F2.f - F1.f) + d2 * 2 ^ (max F1.f F2.f - F2.f) ≤
      2 ^ (max F1.i F2.i + 1 + max F1.f F2.f) - 1 := by
    rw [epow]; omega
  have hSlo : (if F1.s || F2.s then -(2 ^ (max F1.i F2.i + 1 + max F1.f F2.f)) else 0) ≤
      d1 * 2 ^ (max F1.f F2.f - F1.f) + d2 * 2 ^ (max F1.f F2.f - F2.f) := by
    by_cases hs : (F1.s || F2.s) = true
    · rw [if_pos hs, epow]
      omega
    · rw [if_neg hs]
      have hs12 : F1.s = false ∧ F2.s = false := by
        simpa using hs
      obtain ⟨g1, _⟩ := ha1
      obtain ⟨g2, _⟩ := hb1
      rw [hs12.1] at g1
      rw [hs12.2] at g2
      simp only [Bool.false_eq_true, if_false] at g1 g2
      exact add_nonneg (mul_nonneg g1 (le_of_lt p1)) (mul_nonneg g2 (le_of_lt p2))
  have hval : (QaddBundle .full (F1, d1) (F2, d2)).2 =
      d1 * 2 ^ (max F1.f F2.f - F1.f) + d2 * 2 ^ (max F1.f F2.f - F2.f) := by
    simp only [QaddBundle, Qadd, AddMerger, if_true]
    rw [fracConvert_self]
    exact intConvert_eq_self _ _ _ _ _
      (mergeOfm_ne_smgn _ _ ha2 hb2) hSlo hSup
  refine ⟨hval, ⟨?_, ?_⟩, rfl⟩
  · rw [hval]
    exact ⟨hSlo, hSup⟩
  · exact mergeOfm_ne_smgn _ _ ha2 hb2

/-- Alignment preserves the represented dyadic value. -/
theorem ratValue_add_aligned (F1 F2 : Fmt) (d1 d2 : Int) :
    ((d1 * 2 ^ (max F1.f F2.f - F1.f) + d2 * 2 ^ (max F1.f F2.f - F2.f) : Int) : ℚ) /
      2 ^ (max F1.f F2.f) = (d1 : ℚ) / 2 ^ F1.f + (d2 : ℚ) / 2 ^ F2.f := by
  have hf1 : F1.f ≤ max F1.f F2.f := le_max_left _ _
  have hf2 : F2.f ≤ max F1.f F2.f := le_max_right _ _
  push_cast
  rw [add_div]
  congr 1
  · rw [div_eq_div_iff (by positivity) (by positivity), mul_assoc, ← pow_add,
      show max F1.f F2.f - F1.f + F1.f = max F1.f F2.f from by omega]
  · rw [div_eq_div_iff (by positivity) (by positivity), mul_assoc, ← pow_add,
      show max F1.f F2.f - F2.f + F2.f = max F1.f F2.f from by omega]

/-- A full-precision pairwise add of well-formed elements adds the
represented values exactly. -/
theorem QaddBundle_full_value (a b : Fmt × Int) (ha : okQ a) (hb : okQ b) :
    ratValue (QaddBundle .full a b) = ratValue a + ratValue b := by
  obtain ⟨hv, _, hf⟩ := QaddBundle_full_spec a b ha hb
  rw [ratValue, hv, hf]
  exact ratValue_add_aligned a.1 b.1 a.2 b.2

/-- A reduction layer halves (rounding down) the element count. -/
theorem pairAdd_length (t : Bundle) (l : List (Fmt × Int)) :
    (pairAdd t l).length = l.length / 2 := by
  induction l using pairAdd.induct t with
  | case1 => simp [pairAdd]
  | case2 x => simp [pairAdd]
  | case3 a b rest ih => simp only [pairAdd, List.length_cons, ih]; omega

/-- A full-precision reduction layer preserves well-formedness. -/
theorem pairAdd_full_ok (l : List (Fmt × Int)) :
    (∀ q ∈ l, okQ q) → ∀ q ∈ pairAdd .full l, okQ q := by
  induction l using pairAdd.induct .full with
  | case1 => intro _ q hq; simp [pairAdd] at hq
  | case2 x => intro _ q hq; simp [pairAdd] at hq
  | case3 a b rest ih =>
    intro hok q hq
    simp only [pairAdd, List.mem_cons] at hq
    rcases hq with rfl | hq
    · exact (QaddBundle_full_spec a b (hok a (by simp)) (hok b (by simp))).2.1
    · exact ih (fun r hr => hok r (by simp [hr])) q hq

/-- A full-precision reduction layer preserves the total represented
value, minus the value of the unmatched last element when the layer
length is odd (the layer does not emit it; the caller reattaches it). -/
theorem pairAdd_full_sum (l : List (Fmt × Int)) :
    (∀ q ∈ l, okQ q) →
    ((pairAdd .full l).map ratValue).sum +
      (if l.length % 2 = 1 then ((l.getLast?.map ratValue).getD 0) else 0) =
    (l.map ratValue).sum := by
  induction l using pairAdd.induct .full with
  | case1 => intro _; simp [pairAdd]
  | case2 x => intro _; simp [pairAdd]
  | case3 a b rest ih =>
    intro hok
    have hab : ratValue (QaddBundle .full a b) = ratValue a + ratValue b :=
      QaddBundle_full_value a b (hok a (by simp)) (hok b (by simp))
    have ihx := ih (fun r hr => hok r (by simp [hr]))
    rcases rest with _ | ⟨c, rest2⟩
    · simp [pairAdd, hab]
    · have hpar : (c :: rest2).length % 2 = (a :: b :: c :: rest2).length % 2 := by
        simp only [List.length_cons]; omega
      have hlast : (a :: b :: c :: rest2).getLast? = (c :: rest2).getLast? := by
        rw [List.getLast?_cons_cons, List.getLast?_cons_cons]
      simp only [pairAdd, List.map_cons, List.sum_cons] at ihx ⊢
      rw [hab, hlast, ← hpar]
      linarith

/-- The variadic reducer with the `FullPrec` bundle at every layer is
exact on well-formed inputs: the result is well-formed and its
represented value is the exact sum of the input values. -/
theorem reduceVariadic_full_spec :
    ∀ (k : Nat) (l : List (Fmt × Int)), l ≠ [] → (∀ q ∈ l, okQ q) →
      okQ (reduceVariadic (fun _ => Bundle.full) k l) ∧
      ratValue (reduceVariadic (fun _ => Bundle.full) k l) =
        (l.map ratValue).sum := by
  intro k l
  induction k, l using reduceVariadic.induct (fun _ => Bundle.full) with
  | case1 k => intro h; exact absurd rfl h
  | case2 k x =>
    intro _ hok
    rw [reduceVariadic]
    exact ⟨hok x (by simp), by simp⟩
  | case3 k a b rest heven ih =>
    intro _ hok
    have hok2 := pairAdd_full_ok (a :: b :: rest) hok
    have hlen := pairAdd_length Bundle.full (a :: b :: rest)
    have hne2 : pairAdd Bundle.full (a :: b :: rest) ≠ [] := by
      intro hcon
      rw [hcon] at hlen
      simp only [List.length_nil, List.length_cons] at hlen
      omega
    obtain ⟨hokr, hvr⟩ := ih hne2 hok2
    rw [reduceVariadic, if_pos heven]
    refine ⟨hokr, ?_⟩
    have hsum := pairAdd_full_sum (a :: b :: rest) hok
    rw [if_neg (by omega)] at hsum
    rw [hvr]
    linarith
  | case4 k a b rest hodd ih =>
    intro _ hok
    have hok2 := pairAdd_full_ok (a :: b :: rest) hok
    have hlen := pairAdd_length Bundle.full (a :: b :: rest)
    have hne2 : pairAdd Bundle.full (a :: b :: rest) ≠ [] := by
      intro hcon
      rw [hcon] at hlen
      simp only [List.length_nil, List.length_cons] at hlen
      omega
    obtain ⟨hokr, hvr⟩ := ih hne2 hok2
    have hlast : okQ ((a :: b :: rest).getLast (by simp)) :=
      hok _ (List.getLast_mem (by simp))
    rw [reduceVariadic, if_neg hodd]
    refine ⟨(QaddBundle_full_spec _ _ hokr hlast).2.1, ?_⟩
    rw [QaddBundle_full_value _ _ hokr hlast, hvr]
    have hsum := pairAdd_full_sum (a :: b :: rest) hok
    rw [if_pos (by omega), List.getLast?_eq_getLast _ (by simp)] at hsum
    simp only [Option.map, Option.getD] at hsum
    linarith

/-- C7 (counterexample): two inputs of format
`(1, 0, signed, TCPL, SAT::SMGN)` holding the most negative
representable value `-2`: `Qreduce` with `FullPrec` at every layer
yields `-3`, while the textbook wide-integer sum is `-4` — the merged
output inherits `SAT::SMGN`, whose symmetric-magnitude clamp bumps the
exact most-negative sum by one even though the `FullPrec` width can
represent it. -/
theorem c7_fullprec_counterexample :
    inRange ⟨1, 0, true, .tcpl, .satSmgn⟩ (-2) ∧
    (reduceVariadic (fun _ => Bundle.full) 0
      [(⟨1, 0, true, .tcpl, .satSmgn⟩, -2), (⟨1, 0, true, .tcpl, .satSmgn⟩, -2)]).2 = -3 ∧
    (-2 : Int) + -2 = -4 ∧ ((-3 : Int) ≠ -4) := by
  refine ⟨by decide, ?_, by decide, by decide⟩
  rw [reduceVariadic, if_pos (by decide)]
  rw [show pairAdd Bundle.full
      [(⟨1, 0, true, .tcpl, .satSmgn⟩, -2), ((⟨1, 0, true, .tcpl, .satSmgn⟩ : Fmt), (-2 : Int))] =
      [QaddBundle Bundle.full (⟨1, 0, true, .tcpl, .satSmgn⟩, -2)
        (⟨1, 0, true, .tcpl, .satSmgn⟩, -2)] from rfl]
  rw [reduceVariadic]
  decide

/-- C7 (amended): `Qreduce` with the `FullPrec` bundle supplied for
every tree layer returns the exact sum of the represented input values
— for every nonempty tuple of in-range scalar inputs whose formats'
overflow mode is not `SAT::SMGN` (under SMGN a most-negative exact
intermediate is clamped up by one, as the counterexample shows; all
other modes act as the identity on the in-range full-precision
intermediates). -/
theorem c7_fullprec_amended (l : List (Fmt × Int)) (hne : l ≠ [])
    (hok : ∀ q ∈ l, inRange q.1 q.2 ∧ q.1.om ≠ Ofm.satSmgn) :
    ratValue (reduceVariadic (fun _ => Bundle.full) 0 l) =
      (l.map ratValue).sum :=
  (reduceVariadic_full_spec 0 l hne hok).2

/-- C7 (witness): the amended exactness at the concrete inputs `0.5`,
`1.0`, `1.5` (raw `1`, `2`, `3`) of format
`(2, 1, signed, TCPL, SAT::TCPL)`: the reduction represents `3`. -/
theorem c7_fullprec_amended_witness :
    (([((⟨2, 1, true, .tcpl, .satTcpl⟩ : Fmt), (1 : Int)),
       (⟨2, 1, true, .tcpl, .satTcpl⟩, 2),
       (⟨2, 1, true, .tcpl, .satTcpl⟩, 3)] : List (Fmt × Int)) ≠ []) ∧
    ratValue (reduceVariadic (fun _ => Bundle.full) 0
      [(⟨2, 1, true, .tcpl, .satTcpl⟩, 1),
       (⟨2, 1, true, .tcpl, .satTcpl⟩, 2),
       (⟨2, 1, true, .tcpl, .satTcpl⟩, 3)]) =
      (([(((⟨2, 1, true, .tcpl, .satTcpl⟩ : Fmt)), (1 : Int)),
         (⟨2, 1, true, .tcpl, .satTcpl⟩, 2),
         (⟨2, 1, true, .tcpl, .satTcpl⟩, 3)] : List (Fmt × Int)).map ratValue).sum :=
  ⟨by decide,
    c7_fullprec_amended
      [(⟨2, 1, true, .tcpl, .satTcpl⟩, 1),
       (⟨2, 1, true, .tcpl, .satTcpl⟩, 2),
       (⟨2, 1, true, .tcpl, .satTcpl⟩, 3)]
      (by decide) (by decide)⟩

end QuBLAS
